import Mathlib

/-!
Verification of the zgrid single-writer state engine: topology model
(`NewGraph`, `Graph.HasNode`), component finder (`computeIslands`),
aggregator (`aggregate`) and the event-driven state engine (`Grid.update`,
`Grid.Loop`), shallowly embedded from the Go sources.

Go `map[string]V` values are modelled as association lists (`SMap`) whose
operations mirror map lookup, insertion and key-membership; Go `float64`
measurement values are modelled as exact rationals (the claims under
verification concern sums and zero, not rounding).
-/

namespace ZGrid

/-- Association-list model of Go `map[string]V`. -/
def SMap (α : Type) : Type := List (String × α)

namespace SMap

/-- Map lookup: `m[k]` with presence flag (`v, ok := m[k]`). -/
def find? {α : Type} (m : SMap α) (k : String) : Option α :=
  match m with
  | [] => none
  | (k2, v) :: rest => if k2 = k then some v else find? rest k

/-- Map assignment `m[k] = v`: replaces the binding if present, else appends. -/
def insert {α : Type} (m : SMap α) (k : String) (v : α) : SMap α :=
  match m with
  | [] => [(k, v)]
  | (k2, v2) :: rest => if k2 = k then (k2, v) :: rest else (k2, v2) :: insert rest k v

/-- The keys of the map, in binding order. -/
def keys {α : Type} (m : SMap α) : List String := m.map Prod.fst

theorem find_mem_values {α : Type} {m : SMap α} {k : String} {v : α}
    (h : find? m k = some v) : v ∈ m.map Prod.snd := by
  induction m with
  | nil => simp [find?] at h
  | cons p rest ih =>
    obtain ⟨k2, v2⟩ := p
    simp only [find?] at h
    split at h
    · injection h with h
      simp [h]
    · simpa using Or.inr (ih h)

end SMap

instance {α : Type} [DecidableEq α] : DecidableEq (SMap α) :=
  inferInstanceAs (DecidableEq (List (String × α)))

/-- Graph describes grid topology: a list of nodes and adjacency edges
(Go `Graph{Nodes []string; Edges map[string][]string}`). -/
structure Graph where
  Nodes : List String
  Edges : SMap (List String)
deriving DecidableEq

/-- `graph.Edges[n] = []string{}` for every declared node, in node-list order. -/
def initEdges (nodes : List String) (m : SMap (List String)) : SMap (List String) :=
  match nodes with
  | [] => m
  | n :: rest => initEdges rest (m.insert n [])

/-- The edge-processing loop of `NewGraph`: edges of arity other than two are
skipped, edges with an endpoint absent from `nodes` are skipped, and an edge
`[a, b]` appends `b` to `a`'s adjacency and then `a` to `b`'s adjacency. -/
def addEdges (nodes : List String) (edges : List (List String)) (m : SMap (List String)) :
    SMap (List String) :=
  match edges with
  | [] => m
  | e :: rest =>
    match e with
    | [a, b] =>
      if nodes.contains a then
        if nodes.contains b then
          let m1 := m.insert a (((m.find? a).getD []) ++ [b])
          let m2 := m1.insert b (((m1.find? b).getD []) ++ [a])
          addEdges nodes rest m2
        else addEdges nodes rest m
      else addEdges nodes rest m
    | _ => addEdges nodes rest m

/-- `NewGraph` creates graph from nodes and list of edges. -/
def NewGraph (nodes : List String) (edges : List (List String)) : Graph :=
  { Nodes := nodes, Edges := addEdges nodes edges (initEdges nodes []) }

/-- `HasNode` reports whether the graph contains the given node
(key membership in the adjacency map). -/
def Graph.HasNode (g : Graph) (node : String) : Bool :=
  (g.Edges.find? node).isSome

/-- Every string occurring in the graph value: declared nodes, adjacency keys
and adjacency-list members.  Used only as the finite universe for the DFS
termination measure. -/
def graphStrings (g : Graph) : List String :=
  g.Nodes ++ g.Edges.map Prod.fst ++ (g.Edges.map Prod.snd).flatten

theorem mem_graphStrings_of_find {g : Graph} {v : String} {l : List String}
    (h : g.Edges.find? v = some l) {x : String} (hx : x ∈ l) : x ∈ graphStrings g := by
  unfold graphStrings
  have hl : l ∈ g.Edges.map Prod.snd := SMap.find_mem_values h
  simp only [List.mem_append, List.mem_flatten]
  exact Or.inr ⟨l, hl, hx⟩

/-- The inner DFS loop of `computeIslands`.  The Go stack pops from the end;
here the list head is the stack top, so pushing the (not yet visited)
neighbors in slice order corresponds to prepending their reverse.  `visited`
models the Go `map[string]bool` as the list of nodes marked true. -/
def dfsLoop (g : Graph) (stack visited island : List String) :
    List String × List String :=
  match stack with
  | [] => (island, visited)
  | v :: rest =>
    if visited.contains v then
      dfsLoop g rest visited island
    else
      let visited2 := v :: visited
      let island2 := island ++ [v]
      let nbrs := ((g.Edges.find? v).getD []).filter (fun nei => !(visited2.contains nei))
      dfsLoop g (nbrs.reverse ++ rest) visited2 island2
termination_by ((((stack ++ graphStrings g).toFinset \ visited.toFinset).card, stack.length))
decreasing_by
· rename_i hv
  simp_wf
  have hv2 : n ∈ visited.toFinset := by simpa using hv
  rw [Finset.insert_sdiff_of_mem _ hv2]
  exact Prod.Lex.right _ (Nat.lt_succ_self _)
· rename_i hnv
  simp_wf
  apply Prod.Lex.left
  have hnv2 : n ∉ visited := by simpa using hnv
  have hvmem : n ∈ (insert n (rest.toFinset ∪ (graphStrings g).toFinset) \ visited.toFinset) := by
    simp [hnv2]
  apply lt_of_le_of_lt (Finset.card_le_card ?_) (Finset.card_erase_lt_of_mem hvmem)
  intro x hx
  simp only [Finset.mem_sdiff, Finset.mem_union, Finset.mem_insert, Finset.mem_erase,
    Finset.mem_filter, List.mem_toFinset] at hx ⊢
  obtain ⟨hmem, hnmem⟩ := hx
  push_neg at hnmem
  refine ⟨hnmem.1, ?_, hnmem.2⟩
  rcases hmem with h | h
  · rcases hk : g.Edges.find? n with _ | l
    · rw [hk] at h
      simp at h
    · rw [hk] at h
      simp only [Option.getD_some] at h
      exact Or.inr (Or.inr (mem_graphStrings_of_find hk h.1))
  · exact Or.inr h

/-- `nodeToIsland[node] = idx` for each node of the freshly found island. -/
def assignIsland (island : List String) (idx : Nat) (m : SMap Nat) : SMap Nat :=
  match island with
  | [] => m
  | x :: rest => assignIsland rest idx (m.insert x idx)

/-- The outer loop of `computeIslands`: iterate the declared nodes in order,
start a DFS at each not-yet-visited node, append the discovered island and
index its members. -/
def islandsLoop (g : Graph) (nodes visited : List String)
    (islands : List (List String)) (n2i : SMap Nat) :
    List (List String) × SMap Nat :=
  match nodes with
  | [] => (islands, n2i)
  | n :: rest =>
    if visited.contains n then islandsLoop g rest visited islands n2i
    else
      let p := dfsLoop g [n] visited []
      islandsLoop g rest p.2 (islands ++ [p.1]) (assignIsland p.1 islands.length n2i)

/-- `computeIslands` walks the graph and returns the connected components along
with a reverse index from node name to island position. -/
def computeIslands (g : Graph) : List (List String) × SMap Nat :=
  islandsLoop g g.Nodes [] [] []

/-- `IslandMeasurement` aggregates the sum of measurements for a connected
island. -/
structure IslandMeasurement where
  Island : List String
  Total : ℚ
deriving DecidableEq

/-- The accumulation loop of `aggregate`: for each stored measurement whose
node is indexed by `nodeToIsland`, add the value into that island's slot. -/
def accumTotals (n2i : SMap Nat) (ms : SMap ℚ) (totals : List ℚ) : List ℚ :=
  match ms with
  | [] => totals
  | (node, val) :: rest =>
    match n2i.find? node with
    | some idx => accumTotals n2i rest (totals.set idx (totals.getD idx 0 + val))
    | none => accumTotals n2i rest totals

/-- The result-building loop of `aggregate`: one entry per island, in island
order, pairing the island with its accumulated total. -/
def mkEntries (islands : List (List String)) (totals : List ℚ) (i : Nat) :
    List IslandMeasurement :=
  match islands with
  | [] => []
  | isl :: rest => { Island := isl, Total := totals.getD i 0 } :: mkEntries rest totals (i + 1)

/-- Grid stores the current topology (graph/islands) and the latest
measurement per node. -/
structure Grid where
  graph : Graph
  islands : List (List String)
  nodeToIsland : SMap Nat
  measurements : SMap ℚ
deriving DecidableEq

/-- `aggregate` sums the latest measurement for each node into its island and
returns one `IslandMeasurement` entry per island in the current graph. -/
def aggregate (s : Grid) : List IslandMeasurement :=
  mkEntries s.islands (accumTotals s.nodeToIsland s.measurements
    (List.replicate s.islands.length 0)) 0

/-- `NewGrid` initializes an empty grid state. -/
def NewGrid : Grid :=
  { graph := { Nodes := [], Edges := [] }
    islands := []
    nodeToIsland := []
    measurements := [] }

/-- The two event kinds processed by the grid loop; the `Bool` records whether
the event carries a reply channel (`Reply != nil`). -/
inductive Event where
  | graphUpdate (g : Graph) (hasReply : Bool)
  | measurementUpdate (node : String) (value : ℚ) (hasReply : Bool)
deriving DecidableEq

/-- A value sent on a reply channel: the new islands for a `GraphUpdate`, the
per-island totals for a `MeasurementUpdate`. -/
inductive Reply where
  | islandsReply (islands : List (List String))
  | totalsReply (totals : List IslandMeasurement)
deriving DecidableEq

/-- `Grid.update`: processes one event, returning the mutated state and the
value sent on the reply channel, if the event carries one. -/
def Grid.update (s : Grid) (evt : Event) : Grid × Option Reply :=
  match evt with
  | .graphUpdate g hasReply =>
    let p := computeIslands g
    let s2 : Grid := { graph := g, islands := p.1, nodeToIsland := p.2,
                       measurements := s.measurements }
    (s2, if hasReply then some (.islandsReply s2.islands) else none)
  | .measurementUpdate node value hasReply =>
    let s2 : Grid :=
      if s.graph.HasNode node then
        { s with measurements := s.measurements.insert node value }
      else s
    (s2, if hasReply then some (.totalsReply (aggregate s2)) else none)

/-- The state after `Grid.Loop` has serially processed a list of events
(the loop dequeues one event at a time and fully applies it via `update`). -/
def Grid.applyAll (s : Grid) (evts : List Event) : Grid :=
  match evts with
  | [] => s
  | e :: rest => Grid.applyAll (s.update e).1 rest

/-- The reply produced for each event when `Grid.Loop` serially processes a
list of events, in processing order. -/
def Grid.runReplies (s : Grid) (evts : List Event) : List (Option Reply) :=
  match evts with
  | [] => []
  | e :: rest => (s.update e).2 :: Grid.runReplies (s.update e).1 rest

namespace SMap

theorem find_insert_self {α : Type} (m : SMap α) (k : String) (v : α) :
    (m.insert k v).find? k = some v := by
  induction m with
  | nil => simp [insert, find?]
  | cons p rest ih =>
    obtain ⟨k2, v2⟩ := p
    by_cases hk : k2 = k
    · simp [insert, find?, hk]
    · simp [insert, find?, hk, ih]

theorem find_insert_ne {α : Type} (m : SMap α) (k k2 : String) (v : α) (h : ¬ k = k2) :
    (m.insert k v).find? k2 = m.find? k2 := by
  induction m with
  | nil => simp [insert, find?, h]
  | cons p rest ih =>
    obtain ⟨k3, v3⟩ := p
    by_cases hk : k3 = k
    · subst hk
      simp [insert, find?, h, ih]
    · by_cases hk2 : k3 = k2
      · subst hk2
        simp [insert, find?, hk]
      · simp [insert, find?, hk, hk2, ih]

theorem find_insert {α : Type} (m : SMap α) (k k2 : String) (v : α) :
    (m.insert k v).find? k2 = if k = k2 then some v else m.find? k2 := by
  by_cases h : k = k2
  · subst h
    simp [find_insert_self]
  · simp [h, find_insert_ne m k k2 v h]

theorem find_isSome_iff_mem_keys {α : Type} (m : SMap α) (k : String) :
    (m.find? k).isSome = true ↔ k ∈ m.keys := by
  induction m with
  | nil => simp [find?, keys]
  | cons p rest ih =>
    obtain ⟨k2, v2⟩ := p
    by_cases hk : k2 = k
    · simp [find?, keys, hk]
    · simp only [find?, keys, if_neg hk, List.map_cons, List.mem_cons]
      rw [ih]
      constructor
      · exact fun h => Or.inr h
      · rintro (h | h)
        · exact absurd h.symm hk
        · exact h
    
theorem mem_keys_insert {α : Type} (m : SMap α) (k k2 : String) (v : α) :
    k2 ∈ (m.insert k v).keys ↔ k2 = k ∨ k2 ∈ m.keys := by
  induction m with
  | nil => simp [insert, keys]
  | cons p rest ih =>
    obtain ⟨k3, v3⟩ := p
    by_cases hk : k3 = k
    · subst hk
      rw [show SMap.insert ((k3, v3) :: rest) k3 v = (k3, v) :: rest by simp [SMap.insert]]
      simp only [keys, List.map_cons, List.mem_cons]
      tauto
    · simp only [insert, if_neg hk, keys, List.map_cons, List.mem_cons] at ih ⊢
      rw [ih]
      tauto

theorem keys_nodup_insert {α : Type} (m : SMap α) (k : String) (v : α)
    (h : m.keys.Nodup) : (m.insert k v).keys.Nodup := by
  induction m with
  | nil => simp [insert, keys]
  | cons p rest ih =>
    obtain ⟨k2, v2⟩ := p
    simp only [keys, List.map_cons, List.nodup_cons] at h
    by_cases hk : k2 = k
    · subst hk
      simpa [insert, keys, List.nodup_cons] using h
    · simp only [insert, if_neg hk, keys, List.map_cons, List.nodup_cons]
      refine ⟨?_, ih h.2⟩
      rw [show (insert rest k v).map Prod.fst = SMap.keys (insert rest k v) from rfl,
        mem_keys_insert]
      push_neg
      exact ⟨hk, h.1⟩

end SMap

theorem contains_iff {l : List String} {a : String} : l.contains a = true ↔ a ∈ l :=
  List.elem_iff

theorem initEdges_find (nodes : List String) : ∀ (m : SMap (List String)) (x : String),
    (initEdges nodes m).find? x = if x ∈ nodes then some [] else m.find? x := by
  induction nodes with
  | nil => intro m x; simp [initEdges]
  | cons n rest ih =>
    intro m x
    rw [initEdges, ih, SMap.find_insert]
    by_cases hr : x ∈ rest
    · simp [hr]
    · by_cases hn : n = x
      · simp [hr, hn]
      · have : ¬ x = n := fun h => hn h.symm
        simp [hr, hn, this]

theorem isSome_find_insert {α : Type} (m : SMap α) (k k2 : String) (v : α) :
    ((m.insert k v).find? k2).isSome = true ↔ k2 = k ∨ (m.find? k2).isSome = true := by
  rw [SMap.find_insert]
  by_cases h : k = k2
  · simp [h]
  · have : ¬ k2 = k := fun hh => h hh.symm
    simp [h, this]

theorem isSome_find_insert_adj (m : SMap (List String)) (a : String) (t : List String)
    (ha : ((m.find? a).isSome) = true) (x : String) :
    (((m.insert a (((m.find? a).getD []) ++ t)).find? x).isSome) = ((m.find? x).isSome) := by
  rw [SMap.find_insert]
  by_cases h : a = x
  · subst h
    simp [ha]
  · simp [h]

theorem addEdges_find_isSome (nodes : List String) : ∀ (edges : List (List String))
    (m : SMap (List String)), (∀ n ∈ nodes, ((m.find? n).isSome) = true) →
    ∀ x, (((addEdges nodes edges m).find? x).isSome) = ((m.find? x).isSome) := by
  intro edges
  induction edges with
  | nil => intro m _ x; rw [addEdges]
  | cons e rest ih =>
    intro m hm x
    rcases e with _ | ⟨a, _ | ⟨b, _ | ⟨c, tl⟩⟩⟩
    · rw [addEdges]
      exacts [ih m hm x, by simp]
    · rw [addEdges]
      exacts [ih m hm x, by simp]
    case cons.cons.cons.cons =>
      rw [addEdges]
      exacts [ih m hm x, by simp]
    · rw [addEdges]
      by_cases hca : nodes.contains a
      · by_cases hcb : nodes.contains b
        · simp only [hca, hcb, if_pos]
          have ha : ((m.find? a).isSome) = true := hm a (contains_iff.mp hca)
          have hstep1 : ∀ y, (((m.insert a (((m.find? a).getD []) ++ [b])).find? y).isSome)
              = ((m.find? y).isSome) := isSome_find_insert_adj m a [b] ha
          set m1 := m.insert a (((m.find? a).getD []) ++ [b]) with hm1
          have hb1 : ((m1.find? b).isSome) = true := by
            rw [hstep1 b]; exact hm b (contains_iff.mp hcb)
          have hstep2 : ∀ y, (((m1.insert b (((m1.find? b).getD []) ++ [a])).find? y).isSome)
              = ((m1.find? y).isSome) := isSome_find_insert_adj m1 b [a] hb1
          set m2 := m1.insert b (((m1.find? b).getD []) ++ [a]) with hm2
          have hm2ok : ∀ n ∈ nodes, ((m2.find? n).isSome) = true := by
            intro n hn
            rw [hstep2 n, hstep1 n]
            exact hm n hn
          rw [ih m2 hm2ok x, hstep2 x, hstep1 x]
        · rw [if_neg hcb, ite_self]
          exact ih m hm x
      · rw [if_neg hca]
        exact ih m hm x

/-- Well-formedness of an adjacency map: every listed neighbor is a declared
node.  `NewGraph` establishes this because it only ever appends declared
endpoints. -/
def adjClosed (m : SMap (List String)) (nodes : List String) : Prop :=
  ∀ k l, m.find? k = some l → ∀ x ∈ l, x ∈ nodes

theorem adjClosed_insert (m : SMap (List String)) (nodes : List String)
    (h : adjClosed m nodes) (a : String) (t : List String) (ht : ∀ x ∈ t, x ∈ nodes) :
    adjClosed (m.insert a (((m.find? a).getD []) ++ t)) nodes := by
  intro k l hfind x hx
  rw [SMap.find_insert] at hfind
  split at hfind
  · injection hfind with hfind
    subst hfind
    rcases List.mem_append.mp hx with hx | hx
    · rcases hfa : m.find? a with _ | la
      · rw [hfa] at hx; simp at hx
      · rw [hfa] at hx
        exact h a la hfa x hx
    · exact ht x hx
  · exact h k l hfind x hx

theorem adjClosed_initEdges (nodes : List String) : adjClosed (initEdges nodes []) nodes := by
  intro k l hfind x hx
  rw [initEdges_find] at hfind
  split at hfind
  · injection hfind with hfind
    subst hfind
    simp at hx
  · simp [SMap.find?] at hfind

theorem adjClosed_addEdges (nodes : List String) : ∀ (edges : List (List String))
    (m : SMap (List String)), adjClosed m nodes → adjClosed (addEdges nodes edges m) nodes := by
  intro edges
  induction edges with
  | nil => intro m hm; rw [addEdges]; exact hm
  | cons e rest ih =>
    intro m hm
    rcases e with _ | ⟨a, _ | ⟨b, _ | ⟨c, tl⟩⟩⟩
    · rw [addEdges]
      exacts [ih m hm, by simp]
    · rw [addEdges]
      exacts [ih m hm, by simp]
    case cons.cons.cons.cons =>
      rw [addEdges]
      exacts [ih m hm, by simp]
    · rw [addEdges]
      by_cases hca : nodes.contains a
      · by_cases hcb : nodes.contains b
        · simp only [hca, hcb, if_pos]
          apply ih
          apply adjClosed_insert
          · apply adjClosed_insert m nodes hm
            intro x hx
            rw [List.mem_singleton] at hx
            subst hx
            exact contains_iff.mp hcb
          · intro x hx
            rw [List.mem_singleton] at hx
            subst hx
            exact contains_iff.mp hca
        · rw [if_neg hcb, ite_self]
          exact ih m hm
      · rw [if_neg hca]
        exact ih m hm

theorem newGraph_adjClosed (nodes : List String) (edges : List (List String)) :
    adjClosed (NewGraph nodes edges).Edges nodes :=
  adjClosed_addEdges nodes edges (initEdges nodes []) (adjClosed_initEdges nodes)

/-- The condition under which `NewGraph` applies an edge: exactly two
endpoints, both declared. -/
def validEdge (nodes : List String) (e : List String) : Bool :=
  match e with
  | [a, b] => nodes.contains a && nodes.contains b
  | _ => false

theorem addEdges_filter_valid (nodes : List String) : ∀ (edges : List (List String))
    (m : SMap (List String)),
    addEdges nodes edges m = addEdges nodes (edges.filter (validEdge nodes)) m := by
  intro edges
  induction edges with
  | nil => intro m; rfl
  | cons e rest ih =>
    intro m
    rcases e with _ | ⟨a, _ | ⟨b, _ | ⟨c, tl⟩⟩⟩
    · rw [List.filter_cons_of_neg (by simp [validEdge]), addEdges]
      exacts [ih m, by simp]
    · rw [List.filter_cons_of_neg (by simp [validEdge]), addEdges]
      exacts [ih m, by simp]
    case cons.cons.cons.cons =>
      rw [List.filter_cons_of_neg (by simp [validEdge]), addEdges]
      exacts [ih m, by simp]
    · by_cases hca : nodes.contains a
      · by_cases hcb : nodes.contains b
        · have ha : a ∈ nodes := contains_iff.mp hca
          have hb : b ∈ nodes := contains_iff.mp hcb
          rw [List.filter_cons_of_pos (by simp [validEdge, ha, hb]), addEdges, addEdges,
            if_pos hca, if_pos hca, if_pos hcb, if_pos hcb]
          exact ih _
        · have hb : b ∉ nodes := by simpa using hcb
          rw [List.filter_cons_of_neg (by simp [validEdge, hb]), addEdges,
            if_neg hcb, ite_self]
          exact ih m
      · have ha : a ∉ nodes := by simpa using hca
        rw [List.filter_cons_of_neg (by simp [validEdge, ha]), addEdges, if_neg hca]
        exact ih m

theorem mem_find_insert_append (m : SMap (List String)) (a : String) (t : List String)
    (k x : String) (h : x ∈ (m.find? k).getD []) :
    x ∈ ((m.insert a (((m.find? a).getD []) ++ t)).find? k).getD [] := by
  by_cases hak : a = k
  · subst hak
    rw [SMap.find_insert_self]
    simp only [Option.getD_some, List.mem_append]
    exact Or.inl h
  · rw [SMap.find_insert_ne _ _ _ _ hak]
    exact h

theorem mem_find_addEdges_mono (nodes : List String) : ∀ (edges : List (List String))
    (m : SMap (List String)) (k x : String), x ∈ (m.find? k).getD [] →
    x ∈ ((addEdges nodes edges m).find? k).getD [] := by
  intro edges
  induction edges with
  | nil => intro m k x h; rw [addEdges]; exact h
  | cons e rest ih =>
    intro m k x h
    rcases e with _ | ⟨a, _ | ⟨b, _ | ⟨c, tl⟩⟩⟩
    · rw [addEdges]
      exacts [ih m k x h, by simp]
    · rw [addEdges]
      exacts [ih m k x h, by simp]
    case cons.cons.cons.cons =>
      rw [addEdges]
      exacts [ih m k x h, by simp]
    · rw [addEdges]
      by_cases hca : nodes.contains a
      · by_cases hcb : nodes.contains b
        · rw [if_pos hca, if_pos hcb]
          apply ih
          apply mem_find_insert_append
          apply mem_find_insert_append
          exact h
        · rw [if_neg hcb, ite_self]
          exact ih m k x h
      · rw [if_neg hca]
        exact ih m k x h

theorem addEdges_applies (nodes : List String) : ∀ (edges : List (List String))
    (m : SMap (List String)) (a b : String), [a, b] ∈ edges →
    nodes.contains a = true → nodes.contains b = true →
    b ∈ (((addEdges nodes edges m).find? a).getD []) ∧
      a ∈ (((addEdges nodes edges m).find? b).getD []) := by
  intro edges
  induction edges with
  | nil => intro m a b hmem; simp at hmem
  | cons e rest ih =>
    intro m a b hmem hca hcb
    rcases List.mem_cons.mp hmem with heq | hmem2
    · subst heq
      rw [addEdges, if_pos hca, if_pos hcb]
      have h1 : b ∈ ((m.insert a (((m.find? a).getD []) ++ [b])).find? a).getD [] := by
        rw [SMap.find_insert_self]
        simp
      refine ⟨mem_find_addEdges_mono nodes rest _ a b ?_,
        mem_find_addEdges_mono nodes rest _ b a ?_⟩
      · exact mem_find_insert_append _ b [a] a b h1
      · rw [SMap.find_insert_self]
        simp
    · rcases e with _ | ⟨a2, _ | ⟨b2, _ | ⟨c2, tl2⟩⟩⟩
      · rw [addEdges]
        exacts [ih m a b hmem2 hca hcb, by simp]
      · rw [addEdges]
        exacts [ih m a b hmem2 hca hcb, by simp]
      case cons.inr.cons.cons.cons =>
        rw [addEdges]
        exacts [ih m a b hmem2 hca hcb, by simp]
      · rw [addEdges]
        by_cases hca2 : nodes.contains a2
        · by_cases hcb2 : nodes.contains b2
          · rw [if_pos hca2, if_pos hcb2]
            exact ih _ a b hmem2 hca hcb
          · rw [if_neg hcb2, ite_self]
            exact ih m a b hmem2 hca hcb
        · rw [if_neg hca2]
          exact ih m a b hmem2 hca hcb

/-- Main invariant of the inner DFS loop: it appends to `island` a duplicate
free block `delta` of previously unvisited nodes, marks exactly those nodes
visited, covers every unvisited stack entry, and only discovers nodes
satisfying any property `P` that holds on the stack and is closed under
adjacency. -/
theorem dfsLoop_spec (g : Graph) (P : String → Prop)
    (hadj : ∀ k l, g.Edges.find? k = some l → ∀ x ∈ l, P x)
    (stack visited island : List String) :
    (∀ x ∈ stack, P x) →
    ∃ delta, dfsLoop g stack visited island = (island ++ delta, delta.reverse ++ visited) ∧
      delta.Nodup ∧ (∀ x ∈ delta, x ∉ visited) ∧ (∀ x ∈ delta, P x) ∧
      (∀ x ∈ stack, x ∉ visited → x ∈ delta) := by
  induction stack, visited, island using dfsLoop.induct g with
  | case1 visited island =>
    intro _
    exact ⟨[], by simp [dfsLoop], by simp, by simp, by simp, by simp⟩
  | case2 visited island n rest hv ih =>
    intro hstack
    obtain ⟨delta, heq, hnd, hfresh, hP, hcover⟩ :=
      ih (fun x hx => hstack x (List.mem_cons_of_mem _ hx))
    refine ⟨delta, ?_, hnd, hfresh, hP, ?_⟩
    · rw [dfsLoop, if_pos hv]
      exact heq
    · intro x hx hxv
      rcases List.mem_cons.mp hx with rfl | hx2
      · exact absurd (contains_iff.mp hv) hxv
      · exact hcover x hx2 hxv
  | case3 visited island n rest hnv visited2 island2 nbrs ih =>
    intro hstack
    have hveq : visited2 = n :: visited := rfl
    have hieq : island2 = island ++ [n] := rfl
    have hneq : nbrs = ((g.Edges.find? n).getD []).filter
        (fun nei => !(visited2.contains nei)) := rfl
    rw [hveq] at hneq
    have hnv2 : n ∉ visited := by simpa using hnv
    have hstack2 : ∀ x ∈ nbrs.reverse ++ rest, P x := by
      intro x hx
      rcases List.mem_append.mp hx with hx | hx
      · rw [List.mem_reverse, hneq] at hx
        have hx2 := (List.mem_filter.mp hx).1
        rcases hk : g.Edges.find? n with _ | l
        · rw [hk] at hx2
          simp at hx2
        · rw [hk] at hx2
          exact hadj n l hk x (by simpa using hx2)
      · exact hstack x (List.mem_cons_of_mem _ hx)
    obtain ⟨delta2, heq, hnd, hfresh, hP, hcover⟩ := ih hstack2
    rw [hveq] at hfresh hcover
    rw [hveq, hieq, hneq] at heq
    refine ⟨n :: delta2, ?_, ?_, ?_, ?_, ?_⟩
    · rw [dfsLoop, if_neg hnv]
      simp only []
      rw [heq]
      simp
    · rw [List.nodup_cons]
      exact ⟨fun hmem => hfresh n hmem (List.mem_cons_self n visited), hnd⟩
    · intro x hx
      rcases List.mem_cons.mp hx with rfl | hx2
      · exact hnv2
      · exact fun hxv => hfresh x hx2 (List.mem_cons_of_mem _ hxv)
    · intro x hx
      rcases List.mem_cons.mp hx with rfl | hx2
      · exact hstack x (List.mem_cons_self _ _)
      · exact hP x hx2
    · intro x hx hxv
      rcases List.mem_cons.mp hx with rfl | hx2
      · exact List.mem_cons_self _ _
      · by_cases hxn : x = n
        · subst hxn
          exact List.mem_cons_self _ _
        · have hx3 : x ∈ nbrs.reverse ++ rest := List.mem_append.mpr (Or.inr hx2)
          have hxv2 : x ∉ n :: visited := by
            intro hmem
            rcases List.mem_cons.mp hmem with h | h
            · exact hxn h
            · exact hxv h
          exact List.mem_cons_of_mem _ (hcover x hx3 hxv2)

theorem newGraph_find_isSome_iff (nodes : List String) (edges : List (List String))
    (x : String) :
    ((((NewGraph nodes edges).Edges.find? x).isSome) = true) ↔ x ∈ nodes := by
  have hinit : ∀ n ∈ nodes, (((initEdges nodes []).find? n).isSome) = true := by
    intro n hn
    rw [initEdges_find]
    simp [hn]
  show (((addEdges nodes edges (initEdges nodes [])).find? x).isSome = true) ↔ x ∈ nodes
  rw [addEdges_find_isSome nodes edges (initEdges nodes []) hinit x, initEdges_find]
  by_cases h : x ∈ nodes
  · simp [h]
  · simp [h, SMap.find?]

theorem getD_append_left (l1 l2 : List (List String)) (i : Nat) (h : i < l1.length) :
    (l1 ++ l2).getD i [] = l1.getD i [] :=
  List.getD_append l1 l2 [] i h

theorem getD_append_last (l1 : List (List String)) (d : List String) :
    (l1 ++ [d]).getD l1.length [] = d := by
  rw [List.getD_eq_getElem?_getD, List.getElem?_append_right (le_refl _)]
  simp

theorem mem_flatten_of_getD (l : List (List String)) (i : Nat) (h : i < l.length)
    (x : String) (hx : x ∈ l.getD i []) : x ∈ l.flatten := by
  rw [List.getD_eq_getElem?_getD, List.getElem?_eq_getElem h] at hx
  simp only [Option.getD_some] at hx
  exact List.mem_flatten.mpr ⟨l[i], List.getElem_mem h, hx⟩

theorem assignIsland_find (island : List String) (idx : Nat) :
    ∀ (m : SMap Nat) (x : String),
    (assignIsland island idx m).find? x = if x ∈ island then some idx else m.find? x := by
  induction island with
  | nil => intro m x; simp [assignIsland]
  | cons y rest ih =>
    intro m x
    rw [assignIsland, ih, SMap.find_insert]
    by_cases hr : x ∈ rest
    · simp [hr]
    · by_cases hy : y = x
      · simp [hr, hy]
      · have hxy : ¬ x = y := fun h => hy h.symm
        simp [hr, hy, hxy]

/-- Main invariant of the outer loop of the component finder: starting from a
consistent partial state (visited set equal to the union of the islands found
so far, no duplicates, index matching island positions), the loop extends the
island list, covers every processed node, and preserves all the invariants. -/
theorem islandsLoop_spec (g : Graph) (P : String → Prop)
    (hadj : ∀ k l, g.Edges.find? k = some l → ∀ x ∈ l, P x) :
    ∀ (nodes visited : List String) (islands : List (List String)) (n2i : SMap Nat),
    (∀ x ∈ nodes, P x) →
    (∀ x, x ∈ visited ↔ x ∈ islands.flatten) →
    islands.flatten.Nodup →
    (∀ x ∈ islands.flatten, P x) →
    (∀ x i, n2i.find? x = some i ↔ i < islands.length ∧ x ∈ islands.getD i []) →
    (∃ extra, (islandsLoop g nodes visited islands n2i).1 = islands ++ extra) ∧
    (∀ x ∈ nodes, x ∈ (islandsLoop g nodes visited islands n2i).1.flatten) ∧
    (islandsLoop g nodes visited islands n2i).1.flatten.Nodup ∧
    (∀ x ∈ (islandsLoop g nodes visited islands n2i).1.flatten, P x) ∧
    (∀ x i, (islandsLoop g nodes visited islands n2i).2.find? x = some i ↔
      i < (islandsLoop g nodes visited islands n2i).1.length ∧
      x ∈ (islandsLoop g nodes visited islands n2i).1.getD i []) := by
  intro nodes
  induction nodes with
  | nil =>
    intro visited islands n2i hP hvis hnd hPflat hidx
    rw [islandsLoop]
    exact ⟨⟨[], by simp⟩, by simp, hnd, hPflat, hidx⟩
  | cons n rest ih =>
    intro visited islands n2i hP hvis hnd hPflat hidx
    by_cases hv : visited.contains n
    · rw [islandsLoop, if_pos hv]
      obtain ⟨hext, hcov, hnd2, hP2, hidx2⟩ :=
        ih visited islands n2i (fun x hx => hP x (List.mem_cons_of_mem _ hx)) hvis hnd hPflat hidx
      refine ⟨hext, ?_, hnd2, hP2, hidx2⟩
      intro x hx
      rcases List.mem_cons.mp hx with rfl | hx2
      · obtain ⟨extra, heq⟩ := hext
        rw [heq, List.flatten_append]
        exact List.mem_append.mpr (Or.inl ((hvis x).mp (contains_iff.mp hv)))
      · exact hcov x hx2
    · rw [islandsLoop, if_neg hv]
      simp only []
      have hnv : n ∉ visited := by simpa using hv
      obtain ⟨delta, heq, hndd, hfresh, hPd, hcover⟩ :=
        dfsLoop_spec g P hadj [n] visited [] (by
          intro x hx
          rw [List.mem_singleton] at hx
          subst hx
          exact hP x (List.mem_cons_self _ _))
      rw [heq]
      simp only [List.nil_append]
      have hmemn : n ∈ delta := hcover n (List.mem_singleton_self n) hnv
      have hdisj : ∀ x ∈ islands.flatten, x ∉ delta := by
        intro x hx hmem
        exact hfresh x hmem ((hvis x).mpr hx)
      have hlen : (islands ++ [delta]).length = islands.length + 1 := by simp
      have hvis2 : ∀ x, x ∈ delta.reverse ++ visited ↔ x ∈ (islands ++ [delta]).flatten := by
        intro x
        rw [List.mem_append, List.mem_reverse, List.flatten_append, List.mem_append, hvis]
        simp [or_comm]
      have hnd2 : (islands ++ [delta]).flatten.Nodup := by
        rw [List.flatten_append]
        simp only [List.flatten_cons, List.flatten_nil, List.append_nil]
        exact List.Nodup.append hnd hndd hdisj
      have hPflat2 : ∀ x ∈ (islands ++ [delta]).flatten, P x := by
        intro x hx
        rw [List.flatten_append] at hx
        rcases List.mem_append.mp hx with hx | hx
        · exact hPflat x hx
        · simp only [List.flatten_cons, List.flatten_nil, List.append_nil] at hx
          exact hPd x hx
      have hidx2 : ∀ x i, (assignIsland delta islands.length n2i).find? x = some i ↔
          i < (islands ++ [delta]).length ∧ x ∈ (islands ++ [delta]).getD i [] := by
        intro x i
        rw [assignIsland_find]
        by_cases hxd : x ∈ delta
        · rw [if_pos hxd]
          constructor
          · intro hsome
            injection hsome with hsome
            subst hsome
            refine ⟨by rw [hlen]; omega, ?_⟩
            rw [getD_append_last]
            exact hxd
          · rintro ⟨hi, hmem⟩
            rcases Nat.lt_or_ge i islands.length with hlt | hge
            · rw [getD_append_left _ _ _ hlt] at hmem
              have hxf : x ∈ islands.flatten := mem_flatten_of_getD _ _ hlt _ hmem
              exact absurd hxd (hdisj x hxf)
            · have hieq2 : i = islands.length := by
                rw [hlen] at hi
                omega
              rw [hieq2]
        · rw [if_neg hxd, hidx x i]
          constructor
          · rintro ⟨hi, hmem⟩
            refine ⟨by rw [hlen]; omega, ?_⟩
            rw [getD_append_left _ _ _ hi]
            exact hmem
          · rintro ⟨hi, hmem⟩
            rcases Nat.lt_or_ge i islands.length with hlt | hge
            · rw [getD_append_left _ _ _ hlt] at hmem
              exact ⟨hlt, hmem⟩
            · have hieq2 : i = islands.length := by
                rw [hlen] at hi
                omega
              subst hieq2
              rw [getD_append_last] at hmem
              exact absurd hmem hxd
      obtain ⟨hext, hcov, hnd3, hP3, hidx3⟩ :=
        ih (delta.reverse ++ visited) (islands ++ [delta])
          (assignIsland delta islands.length n2i)
          (fun x hx => hP x (List.mem_cons_of_mem _ hx)) hvis2 hnd2 hPflat2 hidx2
      refine ⟨?_, ?_, hnd3, hP3, hidx3⟩
      · obtain ⟨extra, heq2⟩ := hext
        exact ⟨[delta] ++ extra, by rw [heq2, List.append_assoc]⟩
      · intro x hx
        rcases List.mem_cons.mp hx with rfl | hx2
        · obtain ⟨extra, heq2⟩ := hext
          rw [heq2, List.flatten_append]
          apply List.mem_append.mpr
          refine Or.inl ?_
          rw [List.flatten_append]
          apply List.mem_append.mpr
          refine Or.inr ?_
          simpa using hmemn
        · exact hcov x hx2

theorem computeIslands_spec (g : Graph) (P : String → Prop)
    (hadj : ∀ k l, g.Edges.find? k = some l → ∀ x ∈ l, P x)
    (hnodes : ∀ x ∈ g.Nodes, P x) :
    (∀ x ∈ g.Nodes, x ∈ (computeIslands g).1.flatten) ∧
    (computeIslands g).1.flatten.Nodup ∧
    (∀ x ∈ (computeIslands g).1.flatten, P x) ∧
    (∀ x i, (computeIslands g).2.find? x = some i ↔
      i < (computeIslands g).1.length ∧ x ∈ (computeIslands g).1.getD i []) := by
  have h := islandsLoop_spec g P hadj g.Nodes [] [] [] hnodes (by simp) (by simp) (by simp)
    (by intro x i; simp [SMap.find?])
  exact ⟨h.2.1, h.2.2.1, h.2.2.2.1, h.2.2.2.2⟩

theorem computeIslands_nodup (g : Graph) : (computeIslands g).1.flatten.Nodup :=
  (computeIslands_spec g (fun _ => True) (fun _ _ _ _ _ => trivial)
    (fun _ _ => trivial)).2.1

theorem computeIslands_index (g : Graph) :
    ∀ x i, (computeIslands g).2.find? x = some i ↔
      i < (computeIslands g).1.length ∧ x ∈ (computeIslands g).1.getD i [] :=
  (computeIslands_spec g (fun _ => True) (fun _ _ _ _ _ => trivial)
    (fun _ _ => trivial)).2.2.2

theorem computeIslands_flatten_iff (g : Graph)
    (hadj : ∀ k l, g.Edges.find? k = some l → ∀ x ∈ l, x ∈ g.Nodes) :
    ∀ x, x ∈ (computeIslands g).1.flatten ↔ x ∈ g.Nodes := by
  have h := computeIslands_spec g (fun y => y ∈ g.Nodes) hadj (fun x hx => hx)
  intro x
  exact ⟨fun hx => h.2.2.1 x hx, fun hx => h.1 x hx⟩

theorem getD_eq_getElem (l : List (List String)) (i : Nat) (h : i < l.length) :
    l.getD i [] = l[i] := by
  rw [List.getD_eq_getElem?_getD, List.getElem?_eq_getElem h]
  rfl

theorem nodup_flatten_getD_nodup (l : List (List String)) (h : l.flatten.Nodup)
    (i : Nat) (hi : i < l.length) : (l.getD i []).Nodup := by
  rw [getD_eq_getElem l i hi]
  exact (List.nodup_flatten.mp h).1 _ (List.getElem_mem hi)

theorem nodup_flatten_disjoint (l : List (List String)) (h : l.flatten.Nodup) :
    ∀ i j, i < l.length → j < l.length →
    ∀ x, x ∈ l.getD i [] → x ∈ l.getD j [] → i = j := by
  intro i j hi hj x hxi hxj
  have hpw := (List.nodup_flatten.mp h).2
  rw [List.pairwise_iff_getElem] at hpw
  rw [getD_eq_getElem l i hi] at hxi
  rw [getD_eq_getElem l j hj] at hxj
  rcases Nat.lt_trichotomy i j with hij | hij | hij
  · exact absurd hxj (hpw i j hi hj hij hxi)
  · exact hij
  · exact absurd hxi (hpw j i hj hi hij hxj)

theorem mem_flatten_index (l : List (List String)) (x : String)
    (hx : x ∈ l.flatten) : ∃ i, i < l.length ∧ x ∈ l.getD i [] := by
  obtain ⟨t, ht, hxt⟩ := List.mem_flatten.mp hx
  obtain ⟨i, hi, hti⟩ := List.getElem_of_mem ht
  exact ⟨i, hi, by rw [getD_eq_getElem l i hi, hti]; exact hxt⟩

/-- C3: for a topology built by `NewGraph`, the partition returned by
`computeIslands` is complete: the union of the islands is exactly the declared
node set, no node occurs twice (within one island or across two islands),
every declared node lies in exactly one island, and the node-to-island index
holds exactly the position of the island containing each node. -/
theorem C3_partition_complete (nodes : List String) (edges : List (List String))
    (islands : List (List String)) (n2i : SMap Nat)
    (hp : computeIslands (NewGraph nodes edges) = (islands, n2i)) :
    (∀ x, x ∈ islands.flatten ↔ x ∈ nodes) ∧
    islands.flatten.Nodup ∧
    (∀ i, i < islands.length → (islands.getD i []).Nodup) ∧
    (∀ i j, i < islands.length → j < islands.length →
      ∀ x, x ∈ islands.getD i [] → x ∈ islands.getD j [] → i = j) ∧
    (∀ x ∈ nodes, ∃! i, i < islands.length ∧ x ∈ islands.getD i []) ∧
    (∀ x i, n2i.find? x = some i ↔ i < islands.length ∧ x ∈ islands.getD i []) := by
  have hisl : islands = (computeIslands (NewGraph nodes edges)).1 := by rw [hp]
  have hn2i : n2i = (computeIslands (NewGraph nodes edges)).2 := by rw [hp]
  subst hisl
  subst hn2i
  have hadj : ∀ k l, (NewGraph nodes edges).Edges.find? k = some l →
      ∀ x ∈ l, x ∈ (NewGraph nodes edges).Nodes := by
    intro k l hk x hx
    exact newGraph_adjClosed nodes edges k l hk x hx
  have hflat := computeIslands_flatten_iff (NewGraph nodes edges) hadj
  have hnd := computeIslands_nodup (NewGraph nodes edges)
  refine ⟨hflat, hnd, ?_, ?_, ?_, computeIslands_index (NewGraph nodes edges)⟩
  · exact fun i hi => nodup_flatten_getD_nodup _ hnd i hi
  · exact fun i j hi hj x hxi hxj => nodup_flatten_disjoint _ hnd i j hi hj x hxi hxj
  · intro x hx
    obtain ⟨i, hi, hxi⟩ := mem_flatten_index _ x ((hflat x).mpr hx)
    refine ⟨i, ⟨hi, hxi⟩, ?_⟩
    intro j hj
    exact nodup_flatten_disjoint _ hnd j i hj.1 hi x hj.2 hxi

/-- Witness for C3 at the spec's Scenario 1 topology. -/
theorem C3_partition_complete_witness :
    ∃! i, (i < ([["A", "B"], ["C", "D"]] : List (List String)).length ∧
      "C" ∈ ([["A", "B"], ["C", "D"]] : List (List String)).getD i []) :=
  (C3_partition_complete ["A", "B", "C", "D"] [["A", "B"], ["C", "D"]]
    [["A", "B"], ["C", "D"]] [("A", 0), ("B", 0), ("C", 1), ("D", 1)]
    (by simp [computeIslands, islandsLoop, dfsLoop, NewGraph, addEdges, initEdges,
      SMap.insert, SMap.find?, assignIsland])).2.2.2.2.1 "C" (by simp)

theorem getD_set_self (l : List ℚ) (i : Nat) (v : ℚ) (h : i < l.length) :
    (l.set i v).getD i 0 = v := by
  rw [List.getD_eq_getElem?_getD, List.getElem?_set_self (by simpa using h)]
  rfl

theorem getD_set_ne (l : List ℚ) (i j : Nat) (v : ℚ) (h : ¬ j = i) :
    (l.set j v).getD i 0 = l.getD i 0 := by
  rw [List.getD_eq_getElem?_getD, List.getElem?_set_ne h, List.getD_eq_getElem?_getD]

theorem getD_replicate_zero (n i : Nat) : (List.replicate n (0 : ℚ)).getD i 0 = 0 := by
  rcases Nat.lt_or_ge i n with h | h
  · rw [List.getD_eq_getElem?_getD, List.getElem?_eq_getElem (by simpa using h)]
    simp
  · rw [List.getD_eq_getElem?_getD, List.getElem?_eq_none (by simpa using h)]
    rfl

/-- The contribution of a measurement store to island `i` under index `n2i`:
the sum of the values stored for nodes indexed to `i`.  This is what the
accumulation loop of `aggregate` adds into slot `i`. -/
def sumEntries (n2i : SMap Nat) (i : Nat) (ms : SMap ℚ) : ℚ :=
  match ms with
  | [] => 0
  | (node, val) :: rest =>
    (if n2i.find? node = some i then val else 0) + sumEntries n2i i rest

theorem accumTotals_length (n2i : SMap Nat) : ∀ (ms : SMap ℚ) (totals : List ℚ),
    (accumTotals n2i ms totals).length = totals.length := by
  intro ms
  induction ms with
  | nil => intro totals; rw [accumTotals]
  | cons p rest ih =>
    obtain ⟨node, val⟩ := p
    intro totals
    rw [accumTotals]
    rcases hf : SMap.find? n2i node with _ | idx
    · exact ih totals
    · rw [show (match some idx with
          | some idx => accumTotals n2i rest (totals.set idx (totals.getD idx 0 + val))
          | none => accumTotals n2i rest totals) =
          accumTotals n2i rest (totals.set idx (totals.getD idx 0 + val)) from rfl]
      rw [ih, List.length_set]

theorem accumTotals_getD (n2i : SMap Nat) : ∀ (ms : SMap ℚ) (totals : List ℚ) (i : Nat),
    i < totals.length → (∀ x j, SMap.find? n2i x = some j → j < totals.length) →
    (accumTotals n2i ms totals).getD i 0 = totals.getD i 0 + sumEntries n2i i ms := by
  intro ms
  induction ms with
  | nil =>
    intro totals i hi hbound
    rw [accumTotals, sumEntries, add_zero]
  | cons p rest ih =>
    obtain ⟨node, val⟩ := p
    intro totals i hi hbound
    rw [accumTotals, sumEntries]
    rcases hf : SMap.find? n2i node with _ | idx
    · rw [show (if (none : Option Nat) = some i then val else 0) = 0 by simp]
      rw [zero_add]
      exact ih totals i hi hbound
    · rw [show (match some idx with
          | some idx => accumTotals n2i rest (totals.set idx (totals.getD idx 0 + val))
          | none => accumTotals n2i rest totals) =
          accumTotals n2i rest (totals.set idx (totals.getD idx 0 + val)) from rfl]
      have hidxlen : idx < totals.length := hbound node idx hf
      have hbound2 : ∀ x j, SMap.find? n2i x = some j →
          j < (totals.set idx (totals.getD idx 0 + val)).length := by
        intro x j hj
        rw [List.length_set]
        exact hbound x j hj
      rw [ih (totals.set idx (totals.getD idx 0 + val)) i (by rw [List.length_set]; exact hi)
        hbound2]
      by_cases hix : idx = i
      · subst hix
        rw [getD_set_self totals idx _ hidxlen]
        rw [show (if (some idx : Option Nat) = some idx then val else 0) = val by simp]
        ring
      · rw [getD_set_ne totals i idx _ hix]
        rw [show (if (some idx : Option Nat) = some i then val else 0) = 0 by simp [hix]]
        ring

theorem find_eq_none_of_not_mem_keys {α : Type} (m : SMap α) (k : String)
    (h : k ∉ SMap.keys m) : SMap.find? m k = none := by
  rcases hf : SMap.find? m k with _ | v
  · rfl
  · exact absurd ((SMap.find_isSome_iff_mem_keys m k).mp (by rw [hf]; rfl)) h

theorem sum_map_zero (isl : List String) (f : String → ℚ) (hf : ∀ n ∈ isl, f n = 0) :
    (isl.map f).sum = 0 := by
  induction isl with
  | nil => simp
  | cons n rest ih =>
    rw [List.map_cons, List.sum_cons, hf n (List.mem_cons_self _ _),
      ih (fun x hx => hf x (List.mem_cons_of_mem _ hx)), add_zero]

theorem sum_map_extract (v : ℚ) : ∀ (isl : List String), isl.Nodup → ∀ (k : String), k ∈ isl →
    ∀ (f g : String → ℚ), (∀ n, ¬ n = k → f n = g n) → f k = g k + v →
    (isl.map f).sum = (isl.map g).sum + v := by
  intro isl
  induction isl with
  | nil => intro _ k hk; simp at hk
  | cons n rest ih =>
    intro hnd k hk f g hfg hv
    rw [List.nodup_cons] at hnd
    rw [List.map_cons, List.sum_cons, List.map_cons, List.sum_cons]
    rcases List.mem_cons.mp hk with rfl | hk2
    · have hrest : rest.map f = rest.map g := by
        apply List.map_eq_map_iff.mpr
        intro x hx
        exact hfg x (fun hxk => hnd.1 (hxk ▸ hx))
      rw [hrest, hv]
      ring
    · have hnk : ¬ n = k := fun hnk => hnd.1 (hnk ▸ hk2)
      rw [hfg n hnk, ih hnd.2 k hk2 f g hfg hv]
      ring

theorem sumEntries_eq_sum (isl : List String) (hisl : isl.Nodup) (n2i : SMap Nat) (i : Nat)
    (hiff : ∀ x, SMap.find? n2i x = some i ↔ x ∈ isl) :
    ∀ (ms : SMap ℚ), (SMap.keys ms).Nodup →
    sumEntries n2i i ms = (isl.map (fun n => ((SMap.find? ms n).getD 0))).sum := by
  intro ms
  induction ms with
  | nil =>
    intro _
    rw [sumEntries]
    symm
    apply sum_map_zero
    intro n _
    rw [show SMap.find? ([] : SMap ℚ) n = none from rfl]
    rfl
  | cons p rest ih =>
    obtain ⟨k, v⟩ := p
    intro hkeys
    have hkeys2 : (SMap.keys rest).Nodup := by
      have := hkeys
      rw [show SMap.keys ((k, v) :: rest) = k :: SMap.keys rest from rfl,
        List.nodup_cons] at this
      exact this.2
    have hknotin : k ∉ SMap.keys rest := by
      have := hkeys
      rw [show SMap.keys ((k, v) :: rest) = k :: SMap.keys rest from rfl,
        List.nodup_cons] at this
      exact this.1
    rw [sumEntries, ih hkeys2]
    have hfind : ∀ n, ¬ n = k →
        SMap.find? ((k, v) :: rest) n = SMap.find? rest n := by
      intro n hn
      rw [show SMap.find? ((k, v) :: rest) n = (if k = n then some v else SMap.find? rest n)
        from rfl, if_neg (fun h => hn h.symm)]
    by_cases hk : SMap.find? n2i k = some i
    · have hkisl : k ∈ isl := (hiff k).mp hk
      rw [if_pos hk, add_comm v _]
      symm
      apply sum_map_extract v isl hisl k hkisl
      · intro n hn
        rw [hfind n hn]
      · rw [show SMap.find? ((k, v) :: rest) k = (if k = k then some v else SMap.find? rest k)
          from rfl, if_pos rfl, find_eq_none_of_not_mem_keys rest k hknotin]
        simp
    · have hkisl : k ∉ isl := fun hmem => hk ((hiff k).mpr hmem)
      rw [if_neg hk, zero_add]
      congr 1
      apply List.map_eq_map_iff.mpr
      intro x hx
      exact congrArg (fun o => o.getD 0) (hfind x (fun hxk => hkisl (hxk ▸ hx))).symm

/-- The empty aggregate entry, used only as a `getD` default. -/
def emptyEntry : IslandMeasurement := { Island := [], Total := 0 }

theorem mkEntries_length : ∀ (islands : List (List String)) (totals : List ℚ) (j : Nat),
    (mkEntries islands totals j).length = islands.length := by
  intro islands
  induction islands with
  | nil =>
    intro totals j
    rw [mkEntries]
    rfl
  | cons isl rest ih =>
    intro totals j
    rw [mkEntries, List.length_cons, ih, List.length_cons]

theorem mkEntries_getD : ∀ (islands : List (List String)) (totals : List ℚ) (j i : Nat),
    i < islands.length →
    (mkEntries islands totals j).getD i emptyEntry =
      { Island := islands.getD i [], Total := totals.getD (j + i) 0 } := by
  intro islands
  induction islands with
  | nil => intro totals j i hi; simp at hi
  | cons isl rest ih =>
    intro totals j i hi
    rcases i with _ | i2
    · rw [mkEntries, List.getD_cons_zero, List.getD_cons_zero, Nat.add_zero]
    · have h2 : i2 < rest.length := by simpa using hi
      rw [mkEntries, List.getD_cons_succ, ih totals (j + 1) i2 h2, List.getD_cons_succ]
      have hj : j + 1 + i2 = j + (i2 + 1) := by omega
      rw [hj]

/-- The nodes of an island that have an entry in the measurement store. -/
def measuredNodes (ms : SMap ℚ) (isl : List String) : List String :=
  isl.filter (fun n => (SMap.find? ms n).isSome)

/-- The sum of the stored values over the measured nodes of an island. -/
def islandSum (ms : SMap ℚ) (isl : List String) : ℚ :=
  ((measuredNodes ms isl).map (fun n => ((SMap.find? ms n).getD 0))).sum

theorem islandSum_eq_sum (ms : SMap ℚ) : ∀ (isl : List String),
    islandSum ms isl = (isl.map (fun n => ((SMap.find? ms n).getD 0))).sum := by
  intro isl
  induction isl with
  | nil => rfl
  | cons n rest ih =>
    rw [islandSum, measuredNodes] at ih ⊢
    rcases hf : SMap.find? ms n with _ | v
    · rw [List.filter_cons_of_neg (by simp [hf])]
      rw [ih, List.map_cons, List.sum_cons, hf]
      simp
    · rw [List.filter_cons_of_pos (by simp [hf])]
      rw [List.map_cons, List.sum_cons, ih, List.map_cons, List.sum_cons]

theorem aggregate_total_formula (s : Grid)
    (hpart : computeIslands s.graph = (s.islands, s.nodeToIsland))
    (hkeys : (SMap.keys s.measurements).Nodup)
    (i : Nat) (hi : i < s.islands.length) :
    ((aggregate s).getD i emptyEntry).Total =
      islandSum s.measurements (s.islands.getD i []) := by
  have hisl : s.islands = (computeIslands s.graph).1 := by rw [hpart]
  have hn2i : s.nodeToIsland = (computeIslands s.graph).2 := by rw [hpart]
  have hidx := computeIslands_index s.graph
  have hnd := computeIslands_nodup s.graph
  rw [← hisl] at hidx hnd
  rw [← hn2i] at hidx
  have haggr : aggregate s = mkEntries s.islands (accumTotals s.nodeToIsland s.measurements
      (List.replicate s.islands.length 0)) 0 := rfl
  have hbound : ∀ x j, SMap.find? s.nodeToIsland x = some j →
      j < (List.replicate s.islands.length (0 : ℚ)).length := by
    intro x j hj
    rw [List.length_replicate]
    exact ((hidx x j).mp hj).1
  rw [haggr, mkEntries_getD _ _ 0 i hi]
  show (accumTotals s.nodeToIsland s.measurements
    (List.replicate s.islands.length 0)).getD (0 + i) 0 = _
  rw [Nat.zero_add]
  rw [accumTotals_getD s.nodeToIsland s.measurements _ i
    (by rw [List.length_replicate]; exact hi) hbound]
  rw [getD_replicate_zero, zero_add]
  rw [sumEntries_eq_sum (s.islands.getD i []) (nodup_flatten_getD_nodup _ hnd i hi)
    s.nodeToIsland i ?_ s.measurements hkeys, islandSum_eq_sum]
  intro x
  rw [hidx x i]
  constructor
  · exact fun h => h.2
  · exact fun h => ⟨hi, h⟩

/-- C2: for every partition produced by the component finder and every
measurement store with unique keys (a Go map), `aggregate` returns one entry
per island in partition order; each total is the sum of the stored values over
the island's measured nodes, and an island with no measured node totals 0. -/
theorem C2_aggregate_correct (s : Grid)
    (hpart : computeIslands s.graph = (s.islands, s.nodeToIsland))
    (hkeys : (SMap.keys s.measurements).Nodup) :
    (aggregate s).length = s.islands.length ∧
    (∀ i, i < s.islands.length →
      ((aggregate s).getD i emptyEntry).Island = s.islands.getD i [] ∧
      ((aggregate s).getD i emptyEntry).Total =
        islandSum s.measurements (s.islands.getD i [])) ∧
    (∀ i, i < s.islands.length →
      measuredNodes s.measurements (s.islands.getD i []) = [] →
      ((aggregate s).getD i emptyEntry).Total = 0) := by
  have haggr : aggregate s = mkEntries s.islands (accumTotals s.nodeToIsland s.measurements
      (List.replicate s.islands.length 0)) 0 := rfl
  refine ⟨by rw [haggr, mkEntries_length], ?_, ?_⟩
  · intro i hi
    refine ⟨?_, aggregate_total_formula s hpart hkeys i hi⟩
    rw [haggr, mkEntries_getD _ _ 0 i hi]
  · intro i hi hemp
    rw [aggregate_total_formula s hpart hkeys i hi, islandSum, hemp]
    rfl

/-- Witness for C2 at the spec's Scenario 2 state: island `[C, D]` has no
measured node and totals 0. -/
theorem C2_aggregate_correct_witness :
    ((aggregate
      { graph := NewGraph ["A", "B", "C", "D"] [["A", "B"], ["C", "D"]]
        islands := [["A", "B"], ["C", "D"]]
        nodeToIsland := [("A", 0), ("B", 0), ("C", 1), ("D", 1)]
        measurements := [("A", 53 / 10), ("B", 101 / 10)] }).getD 1 emptyEntry).Total = 0 :=
  (C2_aggregate_correct _
    (by simp [computeIslands, islandsLoop, dfsLoop, NewGraph, addEdges, initEdges,
      SMap.insert, SMap.find?, assignIsland])
    (by simp [SMap.keys])).2.2 1 (by simp)
    (by simp [measuredNodes, SMap.find?])

/-- C8: for a builder-produced topology, `HasNode` decides membership in the
declared node list; an identifier appearing only as an edge endpoint is not a
node of the topology. -/
theorem C8_hasNode_iff_declared (nodes : List String) (edges : List (List String))
    (idn : String) :
    (NewGraph nodes edges).HasNode idn = true ↔ idn ∈ nodes := by
  rw [Graph.HasNode]
  exact newGraph_find_isSome_iff nodes edges idn

/-- Witness for C8: "A" is declared and reported present; "C" appears only as
an edge endpoint and is reported absent. -/
theorem C8_hasNode_iff_declared_witness :
    ((NewGraph ["A", "B"] [["A", "B"], ["B", "C"]]).HasNode "A" = true ↔ "A" ∈ ["A", "B"]) ∧
    ((NewGraph ["A", "B"] [["A", "B"], ["B", "C"]]).HasNode "C" = true ↔ "C" ∈ ["A", "B"]) :=
  ⟨C8_hasNode_iff_declared ["A", "B"] [["A", "B"], ["B", "C"]] "A",
   C8_hasNode_iff_declared ["A", "B"] [["A", "B"], ["B", "C"]] "C"⟩

/-- C4: `NewGraph` is a total function whose result is unchanged by dropping
the edges it ignores (wrong arity, or an endpoint not declared); every
declared node has an adjacency entry and only declared nodes do; every kept
edge `[a, b]` contributes `b` to `a`'s neighbor list and `a` to `b`'s. -/
theorem C4_newGraph_build (nodes : List String) (edges : List (List String)) :
    NewGraph nodes edges = NewGraph nodes (edges.filter (validEdge nodes)) ∧
    (∀ x, (((NewGraph nodes edges).Edges.find? x).isSome = true) ↔ x ∈ nodes) ∧
    (∀ a b, [a, b] ∈ edges → a ∈ nodes → b ∈ nodes →
      b ∈ (((NewGraph nodes edges).Edges.find? a).getD []) ∧
      a ∈ (((NewGraph nodes edges).Edges.find? b).getD [])) := by
  refine ⟨?_, newGraph_find_isSome_iff nodes edges, ?_⟩
  · show Graph.mk nodes (addEdges nodes edges (initEdges nodes [])) = _
    rw [addEdges_filter_valid nodes edges (initEdges nodes [])]
    rfl
  · intro a b hmem ha hb
    exact addEdges_applies nodes edges (initEdges nodes []) a b hmem
      (contains_iff.mpr ha) (contains_iff.mpr hb)

/-- Witness for C4: with a malformed edge and a dangling edge present, the
well-formed edge `[A, B]` is still applied in both directions. -/
theorem C4_newGraph_build_witness :
    "B" ∈ (((NewGraph ["A", "B"] [["A", "B"], ["A"], ["A", "C"]]).Edges.find? "A").getD []) ∧
    "A" ∈ (((NewGraph ["A", "B"] [["A", "B"], ["A"], ["A", "C"]]).Edges.find? "B").getD []) :=
  (C4_newGraph_build ["A", "B"] [["A", "B"], ["A"], ["A", "C"]]).2.2 "A" "B"
    (by simp) (by simp) (by simp)

/-- C1: a measurement update stores the value exactly when `HasNode` holds in
the current topology, leaves the topology, partition and index untouched, and
replies (when a reply channel is present) with the aggregate computed over the
current partition and the possibly-updated measurement store. -/
theorem C1_measurement_update (s : Grid) (node : String) (v : ℚ) (r : Bool) :
    (s.graph.HasNode node = true →
      ((s.update (Event.measurementUpdate node v r)).1).measurements =
        s.measurements.insert node v) ∧
    (s.graph.HasNode node = false →
      ((s.update (Event.measurementUpdate node v r)).1).measurements = s.measurements) ∧
    ((s.update (Event.measurementUpdate node v r)).1).graph = s.graph ∧
    ((s.update (Event.measurementUpdate node v r)).1).islands = s.islands ∧
    ((s.update (Event.measurementUpdate node v r)).1).nodeToIsland = s.nodeToIsland ∧
    (s.update (Event.measurementUpdate node v r)).2 =
      (if r then some (Reply.totalsReply (aggregate
        (s.update (Event.measurementUpdate node v r)).1)) else none) := by
  by_cases h : s.graph.HasNode node
  · simp [Grid.update, h]
  · simp [Grid.update, h]

/-- A small concrete grid used by witnesses: topology declaring only "A". -/
def witnessGridA : Grid :=
  { graph := NewGraph ["A"] []
    islands := [["A"]]
    nodeToIsland := [("A", 0)]
    measurements := [] }

/-- `witnessGridA` with the value 5 stored for node "A". -/
def witnessGridA5 : Grid :=
  { graph := NewGraph ["A"] []
    islands := [["A"]]
    nodeToIsland := [("A", 0)]
    measurements := [("A", 5)] }

/-- Witness for C1: on a grid whose topology declares "A", the update stores
the value; on the same grid "Z" is absent and the store is unchanged. -/
theorem C1_measurement_update_witness :
    ((Grid.update witnessGridA (Event.measurementUpdate "A" 5 true)).1).measurements =
      [("A", 5)] ∧
    ((Grid.update witnessGridA (Event.measurementUpdate "Z" 5 true)).1).measurements = [] :=
  ⟨(C1_measurement_update witnessGridA "A" 5 true).1
      (by simp [witnessGridA, NewGraph, Graph.HasNode, addEdges, initEdges,
        SMap.insert, SMap.find?]),
   (C1_measurement_update witnessGridA "Z" 5 true).2.1
      (by simp [witnessGridA, NewGraph, Graph.HasNode, addEdges, initEdges,
        SMap.insert, SMap.find?])⟩

/-- C10: on a freshly created grid (empty topology), any measurement update
stores nothing, replies with the empty list of island totals, and leaves the
whole state equal to its initial value. -/
theorem C10_fresh_grid_measurement (node : String) (v : ℚ) (r : Bool) :
    NewGrid.update (Event.measurementUpdate node v r) =
      (NewGrid, if r then some (Reply.totalsReply []) else none) := by
  simp [Grid.update, NewGrid, Graph.HasNode, SMap.find?, aggregate, mkEntries, accumTotals]

/-- C9: the presence of a reply channel has no effect on the state mutation,
and with no reply channel the result is discarded. -/
theorem C9_reply_independence (s : Grid) (g : Graph) (node : String) (v : ℚ) :
    ((s.update (Event.graphUpdate g true)).1 = (s.update (Event.graphUpdate g false)).1 ∧
     (s.update (Event.graphUpdate g false)).2 = none) ∧
    ((s.update (Event.measurementUpdate node v true)).1 =
      (s.update (Event.measurementUpdate node v false)).1 ∧
     (s.update (Event.measurementUpdate node v false)).2 = none) :=
  ⟨⟨rfl, rfl⟩, ⟨rfl, rfl⟩⟩

/-- C5: a topology update replaces the graph, recomputes islands and index,
replies with the new partition, and leaves the measurement store exactly
unchanged; a value stored before the update is still stored after it, and if
its node is declared in the new (builder-produced) topology it lies in one of
the new islands, whose aggregate total is the island sum over the retained
store. -/
theorem C5_graph_update_frame (s : Grid) (g : Graph) (r : Bool) :
    ((s.update (Event.graphUpdate g r)).1).measurements = s.measurements ∧
    ((s.update (Event.graphUpdate g r)).1).graph = g ∧
    ((s.update (Event.graphUpdate g r)).1).islands = (computeIslands g).1 ∧
    ((s.update (Event.graphUpdate g r)).1).nodeToIsland = (computeIslands g).2 ∧
    (s.update (Event.graphUpdate g r)).2 =
      (if r then some (Reply.islandsReply (computeIslands g).1) else none) ∧
    (∀ X w, SMap.find? s.measurements X = some w →
      SMap.find? ((s.update (Event.graphUpdate g r)).1).measurements X = some w) ∧
    (∀ X nodes edges, g = NewGraph nodes edges → X ∈ nodes →
      ∃ i, i < ((s.update (Event.graphUpdate g r)).1).islands.length ∧
        X ∈ ((s.update (Event.graphUpdate g r)).1).islands.getD i [] ∧
        ((SMap.keys s.measurements).Nodup →
          ((aggregate (s.update (Event.graphUpdate g r)).1).getD i emptyEntry).Total =
            islandSum s.measurements
              (((s.update (Event.graphUpdate g r)).1).islands.getD i []))) := by
  refine ⟨rfl, rfl, rfl, rfl, rfl, fun X w h => h, ?_⟩
  intro X nodes edges hg hX
  subst hg
  have hadj : ∀ k l, (NewGraph nodes edges).Edges.find? k = some l →
      ∀ x ∈ l, x ∈ (NewGraph nodes edges).Nodes := by
    intro k l hk x hx
    exact newGraph_adjClosed nodes edges k l hk x hx
  have hflat := computeIslands_flatten_iff (NewGraph nodes edges) hadj
  obtain ⟨i, hi, hmem⟩ := mem_flatten_index _ X ((hflat X).mpr hX)
  refine ⟨i, hi, hmem, ?_⟩
  intro hkeys
  exact aggregate_total_formula ((s.update
    (Event.graphUpdate (NewGraph nodes edges) r)).1) rfl hkeys i hi

/-- Witness for C5: a value stored for "A" under an old topology survives a
topology update to a graph declaring "A" and "B", and "A" lies in one of the
new islands whose total is the island sum over the retained store. -/
theorem C5_graph_update_frame_witness :
    ∃ i, i < ((Grid.update witnessGridA5
        (Event.graphUpdate (NewGraph ["A", "B"] [["A", "B"]]) true)).1).islands.length ∧
      "A" ∈ ((Grid.update witnessGridA5
        (Event.graphUpdate (NewGraph ["A", "B"] [["A", "B"]]) true)).1).islands.getD i [] ∧
      ((SMap.keys witnessGridA5.measurements).Nodup →
        ((aggregate (Grid.update witnessGridA5
          (Event.graphUpdate (NewGraph ["A", "B"] [["A", "B"]]) true)).1).getD i
            emptyEntry).Total =
          islandSum witnessGridA5.measurements
            (((Grid.update witnessGridA5
              (Event.graphUpdate (NewGraph ["A", "B"] [["A", "B"]]) true)).1).islands.getD
                i [])) :=
  (C5_graph_update_frame witnessGridA5 (NewGraph ["A", "B"] [["A", "B"]]) true).2.2.2.2.2.2
    "A" ["A", "B"] [["A", "B"]] rfl (by simp)

/-- Whether an event is a measurement update. -/
def isMeasurement : Event → Bool
  | Event.measurementUpdate _ _ _ => true
  | Event.graphUpdate _ _ => false

/-- The topology-related portion of the grid state: current graph, islands and
node-to-island index, read together. -/
def topoTriple (s : Grid) : Graph × List (List String) × SMap Nat :=
  (s.graph, s.islands, s.nodeToIsland)

theorem topoTriple_measurement (s : Grid) (e : Event) (he : isMeasurement e = true) :
    topoTriple (s.update e).1 = topoTriple s := by
  cases e with
  | graphUpdate g r => simp [isMeasurement] at he
  | measurementUpdate node v r =>
    by_cases h : s.graph.HasNode node
    · simp [Grid.update, topoTriple, h]
    · simp [Grid.update, topoTriple, h]

theorem topoTriple_applyAll (ms : List Event) : ∀ (s : Grid),
    (∀ e ∈ ms, isMeasurement e = true) → topoTriple (s.applyAll ms) = topoTriple s := by
  induction ms with
  | nil => intro s _; rfl
  | cons e rest ih =>
    intro s hm
    rw [Grid.applyAll]
    rw [ih (s.update e).1 (fun x hx => hm x (List.mem_cons_of_mem _ hx)),
      topoTriple_measurement s e (hm e (List.mem_cons_self _ _))]

theorem applyAll_append (l1 : List Event) : ∀ (l2 : List Event) (s : Grid),
    s.applyAll (l1 ++ l2) = (s.applyAll l1).applyAll l2 := by
  induction l1 with
  | nil => intro l2 s; rfl
  | cons e rest ih =>
    intro l2 s
    rw [List.cons_append, Grid.applyAll, Grid.applyAll, ih]

theorem runReplies_getD (d : Event) : ∀ (evts : List Event) (s : Grid) (j : Nat),
    j < evts.length →
    (Grid.runReplies s evts).getD j none =
      ((s.applyAll (evts.take j)).update (evts.getD j d)).2 := by
  intro evts
  induction evts with
  | nil => intro s j hj; simp at hj
  | cons e rest ih =>
    intro s j hj
    rcases j with _ | j2
    · rfl
    · have hj2 : j2 < rest.length := by simpa using hj
      rw [Grid.runReplies, List.getD_cons_succ, ih (s.update e).1 j2 hj2]
      rfl

/-- C7: the engine applies queued events one at a time, so when one topology
update is queued among measurement updates, the state seen by each event is a
whole pre-update or whole post-update state: every prefix up to the topology
update carries the original (graph, islands, index) triple, every prefix past
it carries exactly the freshly computed triple, and each event's reply is
computed from the state reached after the events queued before it. -/
theorem C7_serial_consistency (s0 : Grid) (ms1 ms2 : List Event) (g : Graph) (r : Bool)
    (h1 : ∀ e ∈ ms1, isMeasurement e = true) (h2 : ∀ e ∈ ms2, isMeasurement e = true) :
    (∀ i, i ≤ ms1.length →
      topoTriple (s0.applyAll ((ms1 ++ Event.graphUpdate g r :: ms2).take i)) =
        topoTriple s0) ∧
    (∀ i, ms1.length < i →
      topoTriple (s0.applyAll ((ms1 ++ Event.graphUpdate g r :: ms2).take i)) =
        (g, (computeIslands g).1, (computeIslands g).2)) ∧
    (∀ j, j < (ms1 ++ Event.graphUpdate g r :: ms2).length →
      (Grid.runReplies s0 (ms1 ++ Event.graphUpdate g r :: ms2)).getD j none =
        ((s0.applyAll ((ms1 ++ Event.graphUpdate g r :: ms2).take j)).update
          ((ms1 ++ Event.graphUpdate g r :: ms2).getD j (Event.graphUpdate g r))).2) := by
  refine ⟨?_, ?_, ?_⟩
  · intro i hi
    rw [List.take_append_eq_append_take, Nat.sub_eq_zero_of_le hi, List.take_zero,
      List.append_nil]
    exact topoTriple_applyAll (ms1.take i) s0
      (fun e he => h1 e (List.mem_of_mem_take he))
  · intro i hi
    rw [List.take_append_eq_append_take]
    have hk : i - ms1.length = (i - ms1.length - 1) + 1 := by omega
    rw [hk, List.take_succ_cons, applyAll_append, Grid.applyAll]
    rw [topoTriple_applyAll (ms2.take (i - ms1.length - 1)) _
      (fun e he => h2 e (List.mem_of_mem_take he))]
    simp [Grid.update, topoTriple]
  · intro j hj
    exact runReplies_getD (Event.graphUpdate g r) _ s0 j hj

/-- Witness for C7: with one measurement on each side of a topology update,
the state before the update carries the initial triple. -/
theorem C7_serial_consistency_witness :
    topoTriple (NewGrid.applyAll (([Event.measurementUpdate "A" 5 true] ++
      Event.graphUpdate (NewGraph ["A"] []) true ::
        [Event.measurementUpdate "B" 1 true]).take 1)) = topoTriple NewGrid :=
  (C7_serial_consistency NewGrid [Event.measurementUpdate "A" 5 true]
    [Event.measurementUpdate "B" 1 true] (NewGraph ["A"] []) true
    (by simp [isMeasurement]) (by simp [isMeasurement])).1 1 (by simp)

/-- The select cases an HTTP handler races while trying to enqueue its event
onto the shared request channel (from `graphHandler` and
`measurementsHandler`): the send itself, the `time.After(backpressureTimeout)`
branch, and caller-context cancellation (`ctx.Done()`). -/
inductive EnqueueCase where
  | send
  | backpressureTimeout
  | ctxDone
deriving DecidableEq

/-- Enqueue select cases of `graphHandler`: the send races only against
caller-context cancellation; there is no bounded-timeout branch. -/
def graphEnqueueCases : List EnqueueCase :=
  [EnqueueCase.send, EnqueueCase.ctxDone]

/-- Enqueue select cases of `measurementsHandler`: the send races against the
backpressure timer and caller-context cancellation. -/
def measurementsEnqueueCases : List EnqueueCase :=
  [EnqueueCase.send, EnqueueCase.backpressureTimeout, EnqueueCase.ctxDone]

/-- `const backpressureTimeout = 20 * time.Millisecond`, in milliseconds. -/
def backpressureTimeoutMillis : Nat := 20

/-- The HTTP status a handler returns when an enqueue select case other than
the send fires: 429 ("server busy, try again") for the backpressure timer, 408
for caller-context cancellation; the send case proceeds to await the reply
instead of responding at once. -/
def enqueueCaseStatus : EnqueueCase → Option Nat
  | EnqueueCase.send => none
  | EnqueueCase.backpressureTimeout => some 429
  | EnqueueCase.ctxDone => some 408

/-- Counterexample for C6: the claim asserts that both handlers bound their
enqueue attempt by the backpressure timeout and return a queue-full result,
but the graph handler's enqueue select has no such case, so the conjunction
fails at the graph handler. -/
theorem C6_counterexample_no_graph_backpressure :
    ¬ (EnqueueCase.backpressureTimeout ∈ graphEnqueueCases ∧
       EnqueueCase.backpressureTimeout ∈ measurementsEnqueueCases) := by
  decide

/-- C6 amended: only the measurements handler bounds its enqueue attempt with
the 20ms backpressure timeout and maps its expiry to the distinct 429
queue-full response; the graph handler's enqueue blocks until a slot frees or
the caller's own context is cancelled. -/
theorem C6_backpressure_amended :
    EnqueueCase.backpressureTimeout ∈ measurementsEnqueueCases ∧
    enqueueCaseStatus EnqueueCase.backpressureTimeout = some 429 ∧
    backpressureTimeoutMillis = 20 ∧
    EnqueueCase.backpressureTimeout ∉ graphEnqueueCases := by
  decide
